import Mathlib

/-!
Verification of the record/table core and the runtime callback wrappers of
CARET_analyze.

The record core (`caret_analyze.record`: `Record`, `Records`, the merge
strategies, `GroupedRecords`, `Clip`, `Strip`) is re-exported by
`src/caret_analyze/record/__init__.py` but its defining modules are not part
of the source tree given here; those definitions are modelled from the
specification text and are marked `Modelled from the spec:`.

The runtime callback wrappers (`CallbackBase`, `TimerCallback`,
`SubscriptionCallback`) are translated from
`src/src/caret_analyze/runtime/callback.py`.  Python properties are embedded
as explicit state-passing functions returning the property value together
with the (possibly updated) object, so that absence of mutation is a provable
statement rather than a modelling assumption.
-/

namespace Caret

/-- Modelled from the spec: a `Record` is one sparse row, a mapping from
column name to an optional integer value; a column name absent from the
association list is logically unset (module `caret_analyze.record.record`,
absent from `src/`). -/
abbrev Record := List (String × Int)

/-- Modelled from the spec: read one column of a record; `none` means the
column is unset for this row. -/
def Record.get (r : Record) (c : String) : Option Int :=
  List.lookup c r

/-- Modelled from the spec: a `Records` is an ordered table of records plus
the ordered column schema (module `caret_analyze.record.record`, absent from
`src/`). -/
structure Records where
  columns : List String
  data : List Record
deriving DecidableEq

/-! ### DataFrameShaper: Strip and Clip
Modelled from the spec (module `caret_analyze.record.data_frame_shaper`,
absent from `src/`). -/

/-- Modelled from the spec: a row is boundary noise for `Strip` exactly when
every target column is unset on it. -/
def allUnset (targets : List String) (r : Record) : Bool :=
  targets.all fun c => (r.get c).isNone

/-- Modelled from the spec: remove the trailing run of rows satisfying `p`
(drop while from the reversed end). -/
def dropTrailing {α : Type} (p : α → Bool) (l : List α) : List α :=
  (l.reverse.dropWhile p).reverse

/-- Modelled from the spec: `Strip(target_columns)` removes the leading and
the trailing run of rows in which every target column is unset, returning a
new table and leaving the input untouched. -/
def Strip (targets : List String) (T : Records) : Records :=
  ⟨T.columns, dropTrailing (allUnset targets) (T.data.dropWhile (allUnset targets))⟩

/-- Modelled from the spec: the `Clip(start, end)` row predicate: the
designated time column is set and its value lies in `[start, end)`. -/
def inWindow (timeColumn : String) (s e : Int) (r : Record) : Bool :=
  match r.get timeColumn with
  | some t => decide (s ≤ t) && decide (t < e)
  | none => false

/-- Modelled from the spec: `Clip(start, end)` retains only rows whose
designated time column falls in `[start, end)`, and fails when that column is
absent from the schema. -/
def Clip (timeColumn : String) (s e : Int) (T : Records) : Except String Records :=
  if timeColumn ∈ T.columns then
    .ok ⟨T.columns, T.data.filter (inWindow timeColumn s e)⟩
  else
    .error "Clip: the designated time column is absent from the schema"

/-! ### Helper lemmas about dropWhile-based trimming -/

theorem dropWhile_head_not {α : Type} (p : α → Bool) (l : List α) :
    List.dropWhile p l = [] ∨
      ∃ a t, List.dropWhile p l = a :: t ∧ p a = false := by
  induction l with
  | nil => exact Or.inl rfl
  | cons a l ih =>
    by_cases h : p a = true
    · simpa [List.dropWhile_cons, h] using ih
    · refine Or.inr ⟨a, l, ?_, by simpa using h⟩
      simp [List.dropWhile_cons, h]

theorem dropWhile_dropWhile {α : Type} (p : α → Bool) (l : List α) :
    List.dropWhile p (List.dropWhile p l) = List.dropWhile p l := by
  rcases dropWhile_head_not p l with h | ⟨a, t, h, ha⟩
  · simp [h]
  · simp [h, List.dropWhile_cons, ha]

theorem dropWhile_append_last {α : Type} {p : α → Bool} {a : α}
    (xs : List α) (ha : p a = false) :
    List.dropWhile p (xs ++ [a]) = List.dropWhile p xs ++ [a] := by
  rw [List.dropWhile_append]
  rcases dropWhile_head_not p xs with h | ⟨b, t, h, hb⟩
  · simp [h, List.dropWhile_cons, ha]
  · simp [h]

theorem dropTrailing_cons_not {α : Type} {p : α → Bool} {a : α}
    (t : List α) (ha : p a = false) :
    dropTrailing p (a :: t) = a :: dropTrailing p t := by
  simp [dropTrailing, List.reverse_cons, dropWhile_append_last _ ha]

theorem dropTrailing_dropTrailing {α : Type} (p : α → Bool) (l : List α) :
    dropTrailing p (dropTrailing p l) = dropTrailing p l := by
  simp [dropTrailing, dropWhile_dropWhile]

theorem dropWhile_dropTrailing_dropWhile {α : Type} (p : α → Bool) (l : List α) :
    List.dropWhile p (dropTrailing p (List.dropWhile p l)) =
      dropTrailing p (List.dropWhile p l) := by
  rcases dropWhile_head_not p l with h | ⟨a, t, h, ha⟩
  · simp [h, dropTrailing]
  · rw [h, dropTrailing_cons_not t ha, List.dropWhile_cons]
    simp [ha]

/-- C1: `Strip` is idempotent: applying it twice with the same target columns
yields the same table as applying it once. -/
theorem Strip_idempotent (targets : List String) (T : Records) :
    Strip targets (Strip targets T) = Strip targets T := by
  unfold Strip
  refine congrArg (Records.mk T.columns) ?_
  rw [dropWhile_dropTrailing_dropWhile, dropTrailing_dropTrailing]

/-- C2: every row retained by `Clip(start, end)` has the designated time
column set to a value `t` with `start ≤ t < end`, and reapplying `Clip` with
the same bounds to its own output returns the output unchanged. -/
theorem Clip_window_and_idempotent (timeColumn : String) (s e : Int)
    (T U : Records) (h : Clip timeColumn s e T = .ok U) :
    (∀ r ∈ U.data, ∃ t, r.get timeColumn = some t ∧ s ≤ t ∧ t < e) ∧
      Clip timeColumn s e U = .ok U := by
  unfold Clip at h
  by_cases hc : timeColumn ∈ T.columns
  · rw [if_pos hc] at h
    have hU : U = ⟨T.columns, T.data.filter (inWindow timeColumn s e)⟩ := by
      cases h; rfl
    constructor
    · intro r hr
      rw [hU] at hr
      have hw : inWindow timeColumn s e r = true := (List.mem_filter.mp hr).2
      unfold inWindow at hw
      cases hg : r.get timeColumn with
      | none => rw [hg] at hw; simp at hw
      | some t =>
        rw [hg] at hw
        simp only [Bool.and_eq_true, decide_eq_true_eq] at hw
        exact ⟨t, rfl, hw.1, hw.2⟩
    · unfold Clip
      rw [hU]
      simp only [if_pos hc]
      rw [List.filter_filter]
      simp only [Bool.and_self]
  · rw [if_neg hc] at h
    cases h

/-- Witness for C2 at a concrete table: `Clip "t" 0 10` keeps the in-window
row `{t: 5}` with `0 ≤ 5 < 10` and is a fixed point on its own output. -/
theorem Clip_window_and_idempotent_witness :
    (∀ r ∈ (Records.mk ["t"] [[("t", (5 : Int))]]).data,
        ∃ t, r.get "t" = some t ∧ (0 : Int) ≤ t ∧ t < 10) ∧
      Clip "t" 0 10 (Records.mk ["t"] [[("t", (5 : Int))]]) =
        .ok (Records.mk ["t"] [[("t", (5 : Int))]]) :=
  Clip_window_and_idempotent "t" 0 10
    (Records.mk ["t"] [[("t", (5 : Int))], [("t", (99 : Int))]])
    (Records.mk ["t"] [[("t", (5 : Int))]]) (by rfl)

/-! ### GroupedRecords
Modelled from the spec (module `caret_analyze.record.grouped_records`,
absent from `src/`). -/

/-- Modelled from the spec: the group key of a row is its tuple of values at
the grouping columns (unset columns contribute `none`). -/
def keyOf (cols : List String) (r : Record) : List (Option Int) :=
  cols.map fun c => r.get c

/-- Modelled from the spec: `UniqueList` insertion appends a value only when
it is not already present, preserving first-insertion order (module
`caret_analyze.record.column`, absent from `src/`). -/
def uniqueAppend {α : Type} [DecidableEq α] (l : List α) (a : α) : List α :=
  if a ∈ l then l else l ++ [a]

/-- Modelled from the spec: a `UniqueList` built by inserting every element of
a list in order. -/
def uniqueList {α : Type} [DecidableEq α] (l : List α) : List α :=
  l.foldl uniqueAppend []

/-- Reference recursion written from the spec sentence for `keys()`: each
distinct value exactly once, in first-occurrence order.  Used as the second
definition the `UniqueList` fold is compared against. -/
def firstOccur {α : Type} [DecidableEq α] : List α → List α
  | [] => []
  | a :: l => a :: firstOccur (l.filter fun b => decide (b ≠ a))
termination_by l => l.length
decreasing_by
  exact Nat.lt_succ_of_le (List.length_filter_le _ _)

/-- Modelled from the spec: `GroupedRecords.keys()` after `group_by`: the
distinct group keys discovered during the single scan, in first-occurrence
order via `UniqueList`. -/
def groupKeys (cols : List String) (T : Records) : List (List (Option Int)) :=
  uniqueList (T.data.map (keyOf cols))

/-- Modelled from the spec: the group of one key collects the member rows in
their original relative order. -/
def groupGet (cols : List String) (T : Records) (k : List (Option Int)) : List Record :=
  T.data.filter fun r => decide (keyOf cols r = k)

/-- Modelled from the spec: `group_by` signals a schema error when a grouping
column is absent, and otherwise returns the key-indexed partition. -/
def group_by (cols : List String) (T : Records) :
    Except String (List (List (Option Int) × List Record)) :=
  if cols.all fun c => decide (c ∈ T.columns) then
    .ok ((groupKeys cols T).map fun k => (k, groupGet cols T k))
  else
    .error "group_by: a grouping column is absent from the schema"

/-! ### Lemmas about uniqueList / firstOccur -/

theorem firstOccur_nil {α : Type} [DecidableEq α] : firstOccur ([] : List α) = [] := by
  simp [firstOccur]

theorem firstOccur_cons {α : Type} [DecidableEq α] (a : α) (l : List α) :
    firstOccur (a :: l) = a :: firstOccur (l.filter fun b => decide (b ≠ a)) := by
  simp [firstOccur]

theorem foldl_uniqueAppend {α : Type} [DecidableEq α] :
    ∀ (l acc : List α),
      l.foldl uniqueAppend acc =
        acc ++ firstOccur (l.filter fun b => decide (b ∉ acc)) := by
  intro l
  induction l with
  | nil => intro acc; simp [firstOccur]
  | cons a l ih =>
    intro acc
    by_cases h : a ∈ acc
    · rw [List.foldl_cons]
      have hstep : uniqueAppend acc a = acc := by simp [uniqueAppend, h]
      rw [hstep, ih acc, List.filter_cons]
      simp [h]
    · rw [List.foldl_cons]
      have hstep : uniqueAppend acc a = acc ++ [a] := by simp [uniqueAppend, h]
      rw [hstep, ih (acc ++ [a])]
      have hfc : ((a :: l).filter fun b => decide (b ∉ acc)) =
          a :: l.filter fun b => decide (b ∉ acc) := by
        simp [List.filter_cons, h]
      rw [hfc, firstOccur_cons, List.filter_filter, List.append_assoc,
        List.cons_append, List.nil_append]
      congr 3
      apply List.filter_congr
      intro x _
      simp [List.mem_append, not_or, Decidable.not_not, and_comm]

theorem uniqueList_eq_firstOccur {α : Type} [DecidableEq α] (l : List α) :
    uniqueList l = firstOccur l := by
  rw [uniqueList, foldl_uniqueAppend l []]
  simp

theorem mem_firstOccur {α : Type} [DecidableEq α] :
    ∀ (l : List α) (x : α), x ∈ firstOccur l ↔ x ∈ l := by
  intro l
  induction l using firstOccur.induct with
  | case1 => intro x; rw [firstOccur_nil]
  | case2 a l ih =>
    intro x
    rw [firstOccur_cons]
    by_cases hx : x = a
    · simp [hx]
    · simp only [List.mem_cons, hx, false_or]
      rw [ih x]
      simp [List.mem_filter, hx]

theorem firstOccur_nodup {α : Type} [DecidableEq α] :
    ∀ l : List α, (firstOccur l).Nodup := by
  intro l
  induction l using firstOccur.induct with
  | case1 => rw [firstOccur_nil]; exact List.nodup_nil
  | case2 a l ih =>
    rw [firstOccur_cons]
    refine List.Nodup.cons ?_ ih
    intro hmem
    have := (mem_firstOccur _ a).mp hmem
    simp [List.mem_filter] at this

theorem flatMap_congr_mem {α β : Type} :
    ∀ (l : List α) (f g : α → List β), (∀ x ∈ l, f x = g x) →
      l.flatMap f = l.flatMap g := by
  intro l
  induction l with
  | nil => intro f g _; rfl
  | cons a l ih =>
    intro f g h
    rw [List.flatMap_cons, List.flatMap_cons, h a (List.mem_cons_self a l),
      ih f g fun x hx => h x (List.mem_cons_of_mem a hx)]

theorem flatMap_filter_perm {α κ : Type} [DecidableEq κ] (f : α → κ) :
    ∀ (ks : List κ) (rows : List α), ks.Nodup → (∀ r ∈ rows, f r ∈ ks) →
      (ks.flatMap fun k => rows.filter fun r => decide (f r = k)).Perm rows := by
  intro ks
  induction ks with
  | nil =>
    intro rows _ hcov
    have : rows = [] := by
      rw [List.eq_nil_iff_forall_not_mem]
      intro r hr
      exact absurd (hcov r hr) (List.not_mem_nil _)
    simp [this]
  | cons k ks ih =>
    intro rows hnd hcov
    rw [List.flatMap_cons]
    have hrest :
        (ks.flatMap fun a => rows.filter fun r => decide (f r = a)) =
          ks.flatMap fun a =>
            (rows.filter fun r => !decide (f r = k)).filter
              fun r => decide (f r = a) := by
      apply flatMap_congr_mem
      intro a ha
      rw [List.filter_filter]
      apply List.filter_congr
      intro r _
      by_cases hfr : f r = a
      · have hak : a ≠ k := by
          intro hak
          exact (List.nodup_cons.mp hnd).1 (hak ▸ ha)
        simp [hfr, hak]
      · simp [hfr]
    rw [hrest]
    have htail :
        (ks.flatMap fun a =>
            (rows.filter fun r => !decide (f r = k)).filter
              fun r => decide (f r = a)).Perm
          (rows.filter fun r => !decide (f r = k)) := by
      apply ih _ (List.nodup_cons.mp hnd).2
      intro r hr
      have hrow := List.mem_filter.mp hr
      have := hcov r hrow.1
      rcases List.mem_cons.mp this with h | h
      · exfalso
        have := hrow.2
        simp [h] at this
      · exact h
    exact ((List.Perm.append_left _ htail).trans
      (List.filter_append_perm (fun r => decide (f r = k)) rows))

/-- C5: `group_by` partitions the table: the discovered keys are pairwise
distinct and list each distinct key value exactly once in first-occurrence
order, and the concatenation of all group subsets is a permutation (multiset
equality) of the table's rows: no row is duplicated or dropped. -/
theorem group_by_partitions (cols : List String) (T : Records) :
    (groupKeys cols T).Nodup ∧
      groupKeys cols T = firstOccur (T.data.map (keyOf cols)) ∧
      ((groupKeys cols T).flatMap (groupGet cols T)).Perm T.data := by
  refine ⟨?_, ?_, ?_⟩
  · rw [groupKeys, uniqueList_eq_firstOccur]
    exact firstOccur_nodup _
  · rw [groupKeys, uniqueList_eq_firstOccur]
  · apply flatMap_filter_perm
    · rw [groupKeys, uniqueList_eq_firstOccur]
      exact firstOccur_nodup _
    · intro r hr
      rw [groupKeys, uniqueList_eq_firstOccur, mem_firstOccur]
      exact List.mem_map_of_mem (keyOf cols) hr

/-! ### merge (equality join)
Modelled from the spec (module `caret_analyze.record.record`, absent from
`src/`).  The claims only exercise the `inner` join kind. -/

/-- Modelled from the spec: two rows match on the mapped join-key pairs when
every paired key column is set on both sides with equal values; an unset key
never matches, not even against another unset key. -/
def keyMatch (lkeys rkeys : List String) (l r : Record) : Bool :=
  (lkeys.zip rkeys).all fun kk =>
    match l.get kk.1, r.get kk.2 with
    | some a, some b => decide (a = b)
    | _, _ => false

/-- Modelled from the spec: the matched pairs of the equality join, in
left-table order and then right-table order: every left row is paired with
every right row it matches (cartesian expansion on the matched subset). -/
def matchedPairs (lkeys rkeys : List String) (L R : List Record) :
    List (Record × Record) :=
  L.flatMap fun l => (R.filter (keyMatch lkeys rkeys l)).map fun r => (l, r)

/-- Modelled from the spec: inner `merge` signals a schema error when a join
key column is absent from its table, and otherwise outputs one combined
record per matched pair. -/
def merge (lkeys rkeys : List String) (L R : Records) : Except String Records :=
  if (lkeys.all fun c => decide (c ∈ L.columns)) &&
      (rkeys.all fun c => decide (c ∈ R.columns)) then
    .ok ⟨uniqueList (L.columns ++ R.columns),
      (matchedPairs lkeys rkeys L.data R.data).map fun p => p.1 ++ p.2⟩
  else
    .error "merge: a join key column is absent from the schema"

theorem keyMatch_symm (lkeys rkeys : List String) (l r : Record) :
    keyMatch lkeys rkeys l r = keyMatch rkeys lkeys r l := by
  rw [keyMatch, keyMatch, ← List.zip_swap lkeys rkeys, List.all_map]
  congr 1
  funext kk
  rcases kk with ⟨kl, kr⟩
  simp only [Function.comp_apply, Prod.swap_prod_mk]
  cases l.get kl <;> cases r.get kr <;> simp [eq_comm]

theorem mem_matchedPairs (lkeys rkeys : List String) (L R : List Record)
    (l r : Record) :
    (l, r) ∈ matchedPairs lkeys rkeys L R ↔
      l ∈ L ∧ r ∈ R ∧ keyMatch lkeys rkeys l r = true := by
  rw [matchedPairs, List.mem_flatMap]
  constructor
  · rintro ⟨x, hx, hmem⟩
    rcases List.mem_map.mp hmem with ⟨y, hy, hxy⟩
    cases hxy
    rcases List.mem_filter.mp hy with ⟨hyR, hk⟩
    exact ⟨hx, hyR, hk⟩
  · rintro ⟨hl, hr, hk⟩
    exact ⟨l, hl, List.mem_map.mpr ⟨r, List.mem_filter.mpr ⟨hr, hk⟩, rfl⟩⟩

/-- C6: the inner equality join is symmetric in content under swapping the
two tables together with the key mapping: a value pair is matched by
`merge(left, right)` exactly when the swapped pair is matched by
`merge(right, left)`, so both argument orders produce the same set of
matched value-tuples. -/
theorem merge_inner_symmetric (lkeys rkeys : List String) (L R : Records)
    (l r : Record) :
    (l, r) ∈ matchedPairs lkeys rkeys L.data R.data ↔
      (r, l) ∈ matchedPairs rkeys lkeys R.data L.data := by
  rw [mem_matchedPairs, mem_matchedPairs, keyMatch_symm]
  constructor
  · rintro ⟨h1, h2, h3⟩; exact ⟨h2, h1, h3⟩
  · rintro ⟨h1, h2, h3⟩; exact ⟨h2, h1, h3⟩

/-- C7: a `merge`, `group_by` or `Clip` call naming a column absent from the
input table's schema fails with a signaled error: no output table (partial or
otherwise) is produced, and the missing column is never treated as
all-unset. -/
theorem missing_column_errors (lkeys rkeys cols : List String)
    (L R T : Records) (timeColumn : String) (s e : Int) :
    (¬ ((∀ c ∈ lkeys, c ∈ L.columns) ∧ ∀ c ∈ rkeys, c ∈ R.columns) →
        merge lkeys rkeys L R =
          .error "merge: a join key column is absent from the schema") ∧
      (¬ (∀ c ∈ cols, c ∈ T.columns) →
        group_by cols T =
          .error "group_by: a grouping column is absent from the schema") ∧
      (timeColumn ∉ T.columns →
        Clip timeColumn s e T =
          .error "Clip: the designated time column is absent from the schema") := by
  refine ⟨?_, ?_, ?_⟩
  · intro h
    rw [merge, if_neg]
    intro hb
    rw [Bool.and_eq_true, List.all_eq_true, List.all_eq_true] at hb
    exact h ⟨fun c hc => of_decide_eq_true (hb.1 c hc),
      fun c hc => of_decide_eq_true (hb.2 c hc)⟩
  · intro h
    rw [group_by, if_neg]
    intro hb
    rw [List.all_eq_true] at hb
    exact h fun c hc => of_decide_eq_true (hb c hc)
  · intro h
    rw [Clip, if_neg h]

/-- Witness for C7: with a single-column schema `["a"]`, asking `merge` for
key `"x"`, `group_by` for column `"y"` and `Clip` for time column `"z"` each
signals the schema error. -/
theorem missing_column_errors_witness :
    merge ["x"] ["a"] (Records.mk ["a"] []) (Records.mk ["a"] []) =
        .error "merge: a join key column is absent from the schema" ∧
      group_by ["y"] (Records.mk ["a"] []) =
        .error "group_by: a grouping column is absent from the schema" ∧
      Clip "z" 0 10 (Records.mk ["a"] []) =
        .error "Clip: the designated time column is absent from the schema" := by
  have h := missing_column_errors ["x"] ["a"] ["y"]
    (Records.mk ["a"] []) (Records.mk ["a"] []) (Records.mk ["a"] []) "z" 0 10
  exact ⟨h.1 (by decide), h.2.1 (by decide), h.2.2 (by decide)⟩

/-! ### merge_sequencial (as-of join)
Modelled from the spec (module `caret_analyze.record.record`, absent from
`src/`). -/

/-- Modelled from the spec: one row of a stream entering the sequential
merge, reduced to its join-key value and its sequencing value. -/
structure SeqRow where
  key : Int
  seq : Int
deriving DecidableEq

/-- Modelled from the spec: consume the earliest not-yet-consumed right row
whose key equals the left row's key and whose sequencing value is at least
the left row's (the forward constraint); returns the consumed row and the
remaining rows.  Right rows carry their original position so that one-to-one
consumption is observable. -/
def pickRight (l : SeqRow) :
    List (Nat × SeqRow) → Option ((Nat × SeqRow) × List (Nat × SeqRow))
  | [] => none
  | r :: rs =>
    if r.2.key = l.key ∧ l.seq ≤ r.2.seq then
      some (r, rs)
    else
      match pickRight l rs with
      | none => none
      | some m => some (m.1, r :: m.2)

/-- Modelled from the spec: the matched pairs of a forward
`merge_sequencial`: left rows, processed in order, each consume the earliest
available right row for their key with sequencing value at least theirs; a
consumed right row is removed from further consideration. -/
def mergeSeqMatches : List SeqRow → List (Nat × SeqRow) → List (SeqRow × (Nat × SeqRow))
  | [], _ => []
  | l :: ls, rs =>
    match pickRight l rs with
    | none => mergeSeqMatches ls rs
    | some m => (l, m.1) :: mergeSeqMatches ls m.2

/-- Modelled from the spec: forward `merge_sequencial`, observed through its
matched (left, indexed right) pairs. -/
def merge_sequencial (lefts rights : List SeqRow) : List (SeqRow × (Nat × SeqRow)) :=
  mergeSeqMatches lefts rights.enum

theorem pickRight_spec (l : SeqRow) :
    ∀ (rs rest : List (Nat × SeqRow)) (m : Nat × SeqRow),
      pickRight l rs = some (m, rest) →
        m.2.key = l.key ∧ l.seq ≤ m.2.seq ∧ (m :: rest).Perm rs := by
  intro rs
  induction rs with
  | nil => intro rest m h; simp [pickRight] at h
  | cons r rs ih =>
    intro rest m h
    rw [pickRight] at h
    by_cases hc : r.2.key = l.key ∧ l.seq ≤ r.2.seq
    · rw [if_pos hc] at h
      cases h
      exact ⟨hc.1, hc.2, List.Perm.refl _⟩
    · rw [if_neg hc] at h
      cases hrec : pickRight l rs with
      | none => rw [hrec] at h; cases h
      | some mm =>
        rw [hrec] at h
        cases h
        obtain ⟨hk, hs, hperm⟩ := ih mm.2 mm.1 (by rw [hrec])
        exact ⟨hk, hs, (List.Perm.swap r mm.1 mm.2).trans (hperm.cons r)⟩

theorem mergeSeqMatches_mem :
    ∀ (ls : List SeqRow) (rs : List (Nat × SeqRow))
      (p : SeqRow × (Nat × SeqRow)), p ∈ mergeSeqMatches ls rs →
        p.2 ∈ rs ∧ p.2.2.key = p.1.key ∧ p.1.seq ≤ p.2.2.seq := by
  intro ls
  induction ls with
  | nil => intro rs p h; simp [mergeSeqMatches] at h
  | cons l ls ih =>
    intro rs p h
    rw [mergeSeqMatches] at h
    cases hpick : pickRight l rs with
    | none =>
      rw [hpick] at h
      exact ih rs p h
    | some m =>
      rw [hpick] at h
      obtain ⟨hk, hs, hperm⟩ := pickRight_spec l rs m.2 m.1 (by rw [hpick])
      rcases List.mem_cons.mp h with hp | hp
      · subst hp
        exact ⟨hperm.mem_iff.mp (List.mem_cons_self _ _), hk, hs⟩
      · obtain ⟨hmem, hkey, hseq⟩ := ih m.2 p hp
        exact ⟨hperm.mem_iff.mp (List.mem_cons_of_mem _ hmem), hkey, hseq⟩

theorem mergeSeqMatches_nodup :
    ∀ (ls : List SeqRow) (rs : List (Nat × SeqRow)),
      (rs.map Prod.fst).Nodup →
        ((mergeSeqMatches ls rs).map fun p => p.2.1).Nodup := by
  intro ls
  induction ls with
  | nil => intro rs _; simp [mergeSeqMatches]
  | cons l ls ih =>
    intro rs hnd
    rw [mergeSeqMatches]
    cases hpick : pickRight l rs with
    | none => exact ih rs hnd
    | some m =>
      obtain ⟨_, _, hperm⟩ := pickRight_spec l rs m.2 m.1 (by rw [hpick])
      have hnd2 : ((m.1 :: m.2).map Prod.fst).Nodup :=
        (hperm.symm.map Prod.fst).nodup hnd
      rw [List.map_cons, List.nodup_cons] at hnd2
      rw [List.map_cons, List.nodup_cons]
      refine ⟨?_, ih m.2 hnd2.2⟩
      intro hmem
      rcases List.mem_map.mp hmem with ⟨q, hq, hq1⟩
      have := (mergeSeqMatches_mem ls m.2 q hq).1
      exact hnd2.1 (hq1 ▸ List.mem_map_of_mem Prod.fst this)

/-- C3: for sorted inputs to a forward `merge_sequencial`, every matched
(left, right) pair satisfies `right.seq ≥ left.seq`, and no right row
appears in more than one matched pair: the right positions bound by the
matches are pairwise distinct. -/
theorem merge_sequencial_forward_sound (lefts rights : List SeqRow)
    (hl : List.Sorted (fun x y : SeqRow => x.seq ≤ y.seq) lefts)
    (hr : List.Sorted (fun x y : SeqRow => x.seq ≤ y.seq) rights) :
    (∀ p ∈ merge_sequencial lefts rights, p.1.seq ≤ p.2.2.seq) ∧
      ((merge_sequencial lefts rights).map fun p => p.2.1).Nodup := by
  constructor
  · intro p hp
    exact (mergeSeqMatches_mem lefts rights.enum p hp).2.2
  · apply mergeSeqMatches_nodup
    rw [List.enum_map_fst]
    exact List.nodup_range _

/-- Witness for C3 on the spec's own scenario: left `[{id 1, t 10}, {id 2,
t 20}]` against right `[{id 1, t 15}, {id 2, t 25}]`. -/
theorem merge_sequencial_forward_sound_witness :
    (∀ p ∈ merge_sequencial [⟨1, 10⟩, ⟨2, 20⟩] [⟨1, 15⟩, ⟨2, 25⟩],
        p.1.seq ≤ p.2.2.seq) ∧
      ((merge_sequencial [⟨1, 10⟩, ⟨2, 20⟩] [⟨1, 15⟩, ⟨2, 25⟩]).map
          fun p => p.2.1).Nodup :=
  merge_sequencial_forward_sound [⟨1, 10⟩, ⟨2, 20⟩] [⟨1, 15⟩, ⟨2, 25⟩]
    (by decide) (by decide)

/-! ### merge_sequencial_for_addr_track
Modelled from the spec (module `caret_analyze.record.record`, absent from
`src/`): per distinct address value, a pending queue of left occurrences in
arrival order; a right occurrence binds to and pops the head of its address's
queue, or is dropped when that queue is empty.  The input is the globally
sorted event stream formed from the two tables. -/

/-- Modelled from the spec: one row entering the address-tracked merge,
reduced to its (reused) address value and its sequencing value. -/
structure AddrRow where
  addr : Int
  seq : Int
deriving DecidableEq

/-- Modelled from the spec: one event of the globally sorted merged stream:
a left-table or a right-table occurrence. -/
inductive Ev where
  | left (r : AddrRow)
  | right (r : AddrRow)
deriving DecidableEq

/-- Modelled from the spec: merge the two tables into the globally sorted
event stream ordered by the sequencing column (left occurrences first on
ties). -/
def mergeEv : List AddrRow → List AddrRow → List Ev
  | [], rs => rs.map Ev.right
  | l :: ls, rs =>
    (rs.takeWhile fun r => decide (r.seq < l.seq)).map Ev.right ++
      (Ev.left l :: mergeEv ls (rs.dropWhile fun r => decide (r.seq < l.seq)))

/-- Modelled from the spec: one step of the address tracker.  A left
occurrence is appended to its address's pending queue; a right occurrence
binds to the head of its address's pending queue (oldest unmatched left),
which is popped, and is dropped when that queue is empty. -/
def addrStep (q : Int → List AddrRow) :
    Ev → ((Int → List AddrRow) × Option (AddrRow × AddrRow))
  | .left r => (fun b => if b = r.addr then q r.addr ++ [r] else q b, none)
  | .right r =>
    match q r.addr with
    | [] => (q, none)
    | lh :: tl => (fun b => if b = r.addr then tl else q b, some (lh, r))

/-- Modelled from the spec: run the address tracker over the event stream,
emitting matched (left, right) pairs in binding order. -/
def addrTrackGo (q : Int → List AddrRow) : List Ev → List (AddrRow × AddrRow)
  | [] => []
  | e :: es =>
    match addrStep q e with
    | (q2, none) => addrTrackGo q2 es
    | (q2, some p) => p :: addrTrackGo q2 es

/-- Modelled from the spec: `merge_sequencial_for_addr_track`, observed
through its matched (left, right) pairs; pending queues start empty. -/
def merge_sequencial_for_addr_track (lefts rights : List AddrRow) :
    List (AddrRow × AddrRow) :=
  addrTrackGo (fun _ => []) (mergeEv lefts rights)

/-- Occurrences of one address value in a table, in arrival order. -/
def occs (a : Int) (rows : List AddrRow) : List AddrRow :=
  rows.filter fun r => decide (r.addr = a)

/-- The matched pairs whose (right side) address is the given one, in binding
order. -/
def matchesOf (a : Int) (ms : List (AddrRow × AddrRow)) : List (AddrRow × AddrRow) :=
  ms.filter fun p => decide (p.2.addr = a)

/-- Left occurrences of one address within an event stream, in order. -/
def evLefts (a : Int) (evs : List Ev) : List AddrRow :=
  evs.filterMap fun e =>
    match e with
    | .left r => if r.addr = a then some r else none
    | .right _ => none

/-- Right occurrences of one address within an event stream, in order. -/
def evRights (a : Int) (evs : List Ev) : List AddrRow :=
  evs.filterMap fun e =>
    match e with
    | .left _ => none
    | .right r => if r.addr = a then some r else none

/-! ### Stream decomposition lemmas -/

theorem evLefts_left_cons (a : Int) (r : AddrRow) (es : List Ev) :
    evLefts a (.left r :: es) =
      if r.addr = a then r :: evLefts a es else evLefts a es := by
  by_cases h : r.addr = a <;> simp [evLefts, List.filterMap_cons, h]

theorem evLefts_right_cons (a : Int) (r : AddrRow) (es : List Ev) :
    evLefts a (.right r :: es) = evLefts a es := by
  simp [evLefts, List.filterMap_cons]

theorem evRights_left_cons (a : Int) (r : AddrRow) (es : List Ev) :
    evRights a (.left r :: es) = evRights a es := by
  simp [evRights, List.filterMap_cons]

theorem evRights_right_cons (a : Int) (r : AddrRow) (es : List Ev) :
    evRights a (.right r :: es) =
      if r.addr = a then r :: evRights a es else evRights a es := by
  by_cases h : r.addr = a <;> simp [evRights, List.filterMap_cons, h]

theorem evLefts_map_right (a : Int) (rs : List AddrRow) :
    evLefts a (rs.map Ev.right) = [] := by
  induction rs with
  | nil => rfl
  | cons r rs ih => simpa [evLefts, List.filterMap_cons] using ih

theorem evRights_map_right (a : Int) (rs : List AddrRow) :
    evRights a (rs.map Ev.right) = occs a rs := by
  induction rs with
  | nil => rfl
  | cons r rs ih =>
    by_cases h : r.addr = a <;>
      simpa [evRights, occs, List.filterMap_cons, List.filter_cons, h] using ih

theorem evLefts_append (a : Int) (xs ys : List Ev) :
    evLefts a (xs ++ ys) = evLefts a xs ++ evLefts a ys :=
  List.filterMap_append xs ys _

theorem evRights_append (a : Int) (xs ys : List Ev) :
    evRights a (xs ++ ys) = evRights a xs ++ evRights a ys :=
  List.filterMap_append xs ys _

theorem mergeEv_evLefts (a : Int) :
    ∀ (ls rs : List AddrRow), evLefts a (mergeEv ls rs) = occs a ls := by
  intro ls
  induction ls with
  | nil => intro rs; rw [mergeEv]; exact evLefts_map_right a rs
  | cons l ls ih =>
    intro rs
    rw [mergeEv, evLefts_append, evLefts_map_right, List.nil_append,
      evLefts_left_cons, ih]
    by_cases h : l.addr = a <;> simp [occs, List.filter_cons, h]

theorem mergeEv_evRights (a : Int) :
    ∀ (ls rs : List AddrRow), evRights a (mergeEv ls rs) = occs a rs := by
  intro ls
  induction ls with
  | nil => intro rs; rw [mergeEv]; exact evRights_map_right a rs
  | cons l ls ih =>
    intro rs
    rw [mergeEv, evRights_append, evRights_map_right, evRights_left_cons, ih]
    conv_rhs =>
      rw [← List.takeWhile_append_dropWhile
        (fun r => decide (r.seq < l.seq)) rs]
    rw [occs, occs, occs, List.filter_append]

theorem matchesOf_cons (a : Int) (p : AddrRow × AddrRow)
    (ms : List (AddrRow × AddrRow)) :
    matchesOf a (p :: ms) =
      if p.2.addr = a then p :: matchesOf a ms else matchesOf a ms := by
  by_cases h : p.2.addr = a <;> simp [matchesOf, List.filter_cons, h]

/-! ### The FIFO invariant of the address tracker -/

theorem addrTrackGo_left (q : Int → List AddrRow) (r : AddrRow) (es : List Ev) :
    addrTrackGo q (.left r :: es) =
      addrTrackGo (fun b => if b = r.addr then q r.addr ++ [r] else q b) es := by
  rw [addrTrackGo, addrStep]

theorem addrTrackGo_right_nil (q : Int → List AddrRow) (r : AddrRow)
    (es : List Ev) (h : q r.addr = []) :
    addrTrackGo q (.right r :: es) = addrTrackGo q es := by
  rw [addrTrackGo, addrStep, h]

theorem addrTrackGo_right_cons (q : Int → List AddrRow) (r : AddrRow)
    (es : List Ev) (lh : AddrRow) (tl : List AddrRow) (h : q r.addr = lh :: tl) :
    addrTrackGo q (.right r :: es) =
      (lh, r) :: addrTrackGo (fun b => if b = r.addr then tl else q b) es := by
  rw [addrTrackGo, addrStep, h]

theorem addrTrackGo_fifo (a : Int) :
    ∀ (evs : List Ev) (q : Int → List AddrRow),
      (∀ x ∈ q a, x.addr = a) →
      (∀ p, p <+: evs →
        (evRights a p).length ≤ (q a).length + (evLefts a p).length) →
      matchesOf a (addrTrackGo q evs) =
        (q a ++ evLefts a evs).zip (evRights a evs) := by
  intro evs
  induction evs with
  | nil =>
    intro q _ _
    simp [addrTrackGo, matchesOf, evLefts, evRights]
  | cons e es ih =>
    intro q hq hdom
    cases e with
    | left r =>
      rw [addrTrackGo_left, evLefts_left_cons, evRights_left_cons]
      by_cases ha : r.addr = a
      · have hqra : q r.addr = q a := by rw [ha]
        have hmem : ∀ x ∈ (if a = r.addr then q r.addr ++ [r] else q a),
            x.addr = a := by
          rw [if_pos ha.symm, hqra]
          intro x hx
          rcases List.mem_append.mp hx with h | h
          · exact hq x h
          · rw [List.mem_singleton.mp h]; exact ha
        have hdom2 : ∀ p, p <+: es →
            (evRights a p).length ≤
              (if a = r.addr then q r.addr ++ [r] else q a).length +
                (evLefts a p).length := by
          intro p hp
          have hstep := hdom (.left r :: p) (List.cons_prefix_cons.mpr ⟨rfl, hp⟩)
          rw [evRights_left_cons, evLefts_left_cons, if_pos ha] at hstep
          rw [if_pos ha.symm, hqra, List.length_append]
          rw [List.length_cons] at hstep
          simp only [List.length_cons, List.length_nil]
          omega
        rw [ih (fun b => if b = r.addr then q r.addr ++ [r] else q b) hmem hdom2,
          if_pos ha]
        show ((if a = r.addr then q r.addr ++ [r] else q a) ++
            evLefts a es).zip (evRights a es) =
          (q a ++ r :: evLefts a es).zip (evRights a es)
        rw [if_pos ha.symm, hqra, List.append_assoc, List.singleton_append]
      · have hmem : ∀ x ∈ (if a = r.addr then q r.addr ++ [r] else q a),
            x.addr = a := by
          rw [if_neg (fun h : a = r.addr => ha h.symm)]
          exact hq
        have hdom2 : ∀ p, p <+: es →
            (evRights a p).length ≤
              (if a = r.addr then q r.addr ++ [r] else q a).length +
                (evLefts a p).length := by
          intro p hp
          have hstep := hdom (.left r :: p) (List.cons_prefix_cons.mpr ⟨rfl, hp⟩)
          rw [evRights_left_cons, evLefts_left_cons, if_neg ha] at hstep
          rw [if_neg (fun h : a = r.addr => ha h.symm)]
          exact hstep
        rw [ih (fun b => if b = r.addr then q r.addr ++ [r] else q b) hmem hdom2,
          if_neg ha]
        show ((if a = r.addr then q r.addr ++ [r] else q a) ++
            evLefts a es).zip (evRights a es) =
          (q a ++ evLefts a es).zip (evRights a es)
        rw [if_neg (fun h : a = r.addr => ha h.symm)]
    | right r =>
      cases hqr : q r.addr with
      | nil =>
        rw [addrTrackGo_right_nil q r es hqr, evLefts_right_cons,
          evRights_right_cons]
        by_cases ha : r.addr = a
        · exfalso
          have hstep := hdom [.right r]
            (List.cons_prefix_cons.mpr ⟨rfl, List.nil_prefix⟩)
          rw [evRights_right_cons, evLefts_right_cons, if_pos ha] at hstep
          have hqa : q a = [] := by rw [← ha]; exact hqr
          rw [hqa] at hstep
          simp [evRights, evLefts] at hstep
        · rw [if_neg ha]
          apply ih q hq
          intro p hp
          have hstep := hdom (.right r :: p) (List.cons_prefix_cons.mpr ⟨rfl, hp⟩)
          rwa [evRights_right_cons, evLefts_right_cons, if_neg ha] at hstep
      | cons lh tl =>
        rw [addrTrackGo_right_cons q r es lh tl hqr, matchesOf_cons,
          evLefts_right_cons, evRights_right_cons]
        by_cases ha : r.addr = a
        · rw [if_pos ha, if_pos ha]
          have hqa : q a = lh :: tl := by rw [← ha]; exact hqr
          have hmem : ∀ x ∈ (if a = r.addr then tl else q a), x.addr = a := by
            rw [if_pos ha.symm]
            intro x hx
            exact hq x (by rw [hqa]; exact List.mem_cons_of_mem lh hx)
          have hdom2 : ∀ p, p <+: es →
              (evRights a p).length ≤
                (if a = r.addr then tl else q a).length +
                  (evLefts a p).length := by
            intro p hp
            have hstep := hdom (.right r :: p)
              (List.cons_prefix_cons.mpr ⟨rfl, hp⟩)
            rw [evRights_right_cons, evLefts_right_cons, if_pos ha, hqa] at hstep
            rw [if_pos ha.symm]
            rw [List.length_cons, List.length_cons] at hstep
            omega
          rw [ih (fun b => if b = r.addr then tl else q b) hmem hdom2]
          show ((lh, r) :: ((if a = r.addr then tl else q a) ++
              evLefts a es).zip (evRights a es)) =
            ((q a ++ evLefts a es).zip (r :: evRights a es))
          rw [if_pos ha.symm, hqa, List.cons_append, List.zip_cons_cons]
        · rw [if_neg ha, if_neg ha]
          have hmem : ∀ x ∈ (if a = r.addr then tl else q a), x.addr = a := by
            rw [if_neg (fun h : a = r.addr => ha h.symm)]
            exact hq
          have hdom2 : ∀ p, p <+: es →
              (evRights a p).length ≤
                (if a = r.addr then tl else q a).length +
                  (evLefts a p).length := by
            intro p hp
            have hstep := hdom (.right r :: p)
              (List.cons_prefix_cons.mpr ⟨rfl, hp⟩)
            rw [evRights_right_cons, evLefts_right_cons, if_neg ha] at hstep
            rw [if_neg (fun h : a = r.addr => ha h.symm)]
            exact hstep
          rw [ih (fun b => if b = r.addr then tl else q b) hmem hdom2]
          show ((if a = r.addr then tl else q a) ++
              evLefts a es).zip (evRights a es) =
            (q a ++ evLefts a es).zip (evRights a es)
          rw [if_neg (fun h : a = r.addr => ha h.symm)]

theorem zip_map_snd_sublist {α β : Type} :
    ∀ (xs : List α) (ys : List β), ((xs.zip ys).map Prod.snd).Sublist ys := by
  intro xs
  induction xs with
  | nil => intro ys; simp
  | cons x xs ih =>
    intro ys
    cases ys with
    | nil => simp
    | cons y ys =>
      rw [List.zip_cons_cons, List.map_cons]
      exact (ih ys).cons₂ y

/-- Counterexample to C4 as stated: with left occurrences of address 7 at
sequencing value 5 and right occurrences at 1 and 35, the inputs are globally
sorted, yet the first (and only) matched pair binds the first left occurrence
to the second right occurrence, not the first: the right occurrence at 1
arrives while the pending queue for address 7 is still empty and is dropped. -/
theorem addr_track_nth_counterexample :
    List.Pairwise (fun x y : AddrRow => x.seq < y.seq) [⟨7, 5⟩] ∧
      List.Pairwise (fun x y : AddrRow => x.seq < y.seq) [⟨7, 1⟩, ⟨7, 10⟩] ∧
      merge_sequencial_for_addr_track [⟨7, 5⟩] [⟨7, 1⟩, ⟨7, 10⟩] =
        [(⟨7, 5⟩, ⟨7, 10⟩)] ∧
      matchesOf 7 (merge_sequencial_for_addr_track [⟨7, 5⟩] [⟨7, 1⟩, ⟨7, 10⟩]) ≠
        (occs 7 [⟨7, 5⟩]).zip (occs 7 [⟨7, 1⟩, ⟨7, 10⟩]) := by
  refine ⟨by decide, by decide, by decide, by decide⟩

/-- C4 (amended): provided no right occurrence of an address arrives while
that address's pending queue is empty (every prefix of the globally sorted
event stream carries at least as many left as right occurrences of the
address), the matches for that address pair the N-th left occurrence with the
N-th right occurrence in arrival order, and successive matches' right
sequencing values strictly increase (matches never cross). -/
theorem addr_track_fifo_amended (lefts rights : List AddrRow) (a : Int)
    (hl : List.Pairwise (fun x y : AddrRow => x.seq < y.seq) lefts)
    (hr : List.Pairwise (fun x y : AddrRow => x.seq < y.seq) rights)
    (hdom : ∀ i ≤ (mergeEv lefts rights).length,
      (evRights a ((mergeEv lefts rights).take i)).length ≤
        (evLefts a ((mergeEv lefts rights).take i)).length) :
    matchesOf a (merge_sequencial_for_addr_track lefts rights) =
        (occs a lefts).zip (occs a rights) ∧
      List.Pairwise (fun x y : AddrRow × AddrRow => x.2.seq < y.2.seq)
        (matchesOf a (merge_sequencial_for_addr_track lefts rights)) := by
  have hmain : matchesOf a (merge_sequencial_for_addr_track lefts rights) =
      (occs a lefts).zip (occs a rights) := by
    rw [merge_sequencial_for_addr_track,
      addrTrackGo_fifo a (mergeEv lefts rights) (fun _ => [])
        (by intro x hx; simp at hx) ?_,
      List.nil_append, mergeEv_evLefts, mergeEv_evRights]
    intro p hp
    have htake := List.prefix_iff_eq_take.mp hp
    have hlen : p.length ≤ (mergeEv lefts rights).length := hp.length_le
    rw [htake]
    simpa using hdom p.length hlen
  refine ⟨hmain, ?_⟩
  rw [hmain]
  have hsnd : (((occs a lefts).zip (occs a rights)).map Prod.snd).Sublist
      (occs a rights) := zip_map_snd_sublist _ _
  have hpair : List.Pairwise (fun x y : AddrRow => x.seq < y.seq)
      (((occs a lefts).zip (occs a rights)).map Prod.snd) :=
    List.Pairwise.sublist hsnd (List.Pairwise.filter _ hr)
  rw [List.pairwise_map] at hpair
  exact hpair

/-- Witness for C4 (amended) on the spec's address-reuse scenario: address 7
occurs on the left at times 5 and 30 and on the right at 10 and 35; FIFO
matching yields (5, 10) then (30, 35). -/
theorem addr_track_fifo_amended_witness :
    matchesOf 7 (merge_sequencial_for_addr_track
          [⟨7, 5⟩, ⟨7, 30⟩] [⟨7, 10⟩, ⟨7, 35⟩]) =
        (occs 7 [⟨7, 5⟩, ⟨7, 30⟩]).zip (occs 7 [⟨7, 10⟩, ⟨7, 35⟩]) ∧
      List.Pairwise (fun x y : AddrRow × AddrRow => x.2.seq < y.2.seq)
        (matchesOf 7 (merge_sequencial_for_addr_track
          [⟨7, 5⟩, ⟨7, 30⟩] [⟨7, 10⟩, ⟨7, 35⟩])) :=
  addr_track_fifo_amended [⟨7, 5⟩, ⟨7, 30⟩] [⟨7, 10⟩, ⟨7, 35⟩] 7
    (by decide) (by decide) (by decide)

/-! ### Runtime callback wrappers
Translated from `src/src/caret_analyze/runtime/callback.py`.  The collaborator
classes (`Publisher`, `Subscription`, `Timer`, the struct values, the records
provider) live outside the given source tree and are modelled minimally by
the fields `CallbackBase` reads. -/

/-- Publisher runtime object (external collaborator): its topic name, which
`CallbackBase.publishers` sorts by, plus its node name to keep distinct
publishers distinguishable. -/
structure Publisher where
  topic_name : String
  node_name : String
deriving DecidableEq

/-- Subscription runtime object (external collaborator), reduced to its topic
name. -/
structure Subscription where
  topic_name : String
deriving DecidableEq

/-- Timer runtime object (external collaborator), reduced to its period. -/
structure Timer where
  period_ns : Int
deriving DecidableEq

/-- Callback type tag (external value object). -/
inductive CallbackType where
  | timer_callback
  | subscription_callback
deriving DecidableEq

/-- Static callback description (external value object
`CallbackStructValue`), reduced to the fields `CallbackBase` reads. -/
structure CallbackStructValue where
  node_name : String
  symbol : String
  callback_name : String
  callback_type : CallbackType
  publish_topic_names : Option (List String)
  subscribe_topic_name : Option String
deriving DecidableEq

/-- Records provider collaborator: opaque to every claim checked here. -/
abbrev RecordsProvider := Unit

/-- `CallbackBase.__init__` stores its five arguments
(callback.py:34-64). -/
structure CallbackBase where
  __val : CallbackStructValue
  _provider : RecordsProvider
  _sub : Option Subscription
  _pubs : Option (List Publisher)
  _timer : Option Timer
deriving DecidableEq

/-- Ordering used by `sorted(self._pubs, key=lambda x: x.topic_name)`. -/
def topicLe (a b : Publisher) : Prop :=
  a.topic_name ≤ b.topic_name

instance : DecidableRel topicLe := fun a b =>
  inferInstanceAs (Decidable (a.topic_name ≤ b.topic_name))

instance : IsTotal Publisher topicLe :=
  ⟨fun a b => le_total a.topic_name b.topic_name⟩

instance : IsTrans Publisher topicLe :=
  ⟨fun _ _ _ h1 h2 => le_trans h1 h2⟩

/-- `CallbackBase.node_name` (callback.py:66-77).  Properties are embedded as
state-passing reads returning the value together with the object as the
property body leaves it; this body performs no assignment. -/
def CallbackBase.node_name (c : CallbackBase) : String × CallbackBase :=
  (c.__val.node_name, c)

/-- `CallbackBase.symbol` (callback.py:79-90). -/
def CallbackBase.symbol (c : CallbackBase) : String × CallbackBase :=
  (c.__val.symbol, c)

/-- `CallbackBase.callback_name` (callback.py:92-103). -/
def CallbackBase.callback_name (c : CallbackBase) : String × CallbackBase :=
  (c.__val.callback_name, c)

/-- `CallbackBase.callback_type` (callback.py:105-116). -/
def CallbackBase.callback_type (c : CallbackBase) : CallbackType × CallbackBase :=
  (c.__val.callback_type, c)

/-- `CallbackBase.subscription` (callback.py:118-130). -/
def CallbackBase.subscription (c : CallbackBase) : Option Subscription × CallbackBase :=
  (c._sub, c)

/-- `CallbackBase.publishers` (callback.py:132-145): `None` when the stored
list is `None`, otherwise a fresh list sorted ascending by topic name.
Python's `sorted` is a stable sort; `List.insertionSort` is the stable sort
used to embed it. -/
def CallbackBase.publishers (c : CallbackBase) :
    Option (List Publisher) × CallbackBase :=
  match c._pubs with
  | none => (none, c)
  | some ps => (some (List.insertionSort topicLe ps), c)

/-- `CallbackBase.timer` (callback.py:147-159). -/
def CallbackBase.timer (c : CallbackBase) : Option Timer × CallbackBase :=
  (c._timer, c)

/-- `CallbackBase.publish_topic_names` (callback.py:161-174): `None` when the
stored struct value's collection is `None`, otherwise a sorted copy. -/
def CallbackBase.publish_topic_names (c : CallbackBase) :
    Option (List String) × CallbackBase :=
  match c.__val.publish_topic_names with
  | none => (none, c)
  | some ts => (some (List.insertionSort (fun a b : String => a ≤ b) ts), c)

/-- `CallbackBase.subscribe_topic_name` (callback.py:176-188). -/
def CallbackBase.subscribe_topic_name (c : CallbackBase) :
    Option String × CallbackBase :=
  (c.__val.subscribe_topic_name, c)

/-- Static timer callback description (external value object), wrapping the
base struct value with the timer period. -/
structure TimerCallbackStructValue where
  base : CallbackStructValue
  period_ns : Int

/-- Static subscription callback description (external value object). -/
structure SubscriptionCallbackStructValue where
  base : CallbackStructValue

/-- `TimerCallback.__init__` (callback.py:218-244): forwards to the base
constructor with `None` for the subscription collaborator and the timer
present. -/
def mkTimerCallback (callback : TimerCallbackStructValue)
    (records_provider : RecordsProvider) (publishers : Option (List Publisher))
    (timer : Timer) : CallbackBase :=
  ⟨callback.base, records_provider, none, publishers, some timer⟩

/-- `SubscriptionCallback.__init__` (callback.py:260-285): forwards to the
base constructor with the subscription present and `None` for the timer
collaborator. -/
def mkSubscriptionCallback (callback_info : SubscriptionCallbackStructValue)
    (records_provider : RecordsProvider) (subscription : Subscription)
    (publishers : Option (List Publisher)) : CallbackBase :=
  ⟨callback_info.base, records_provider, some subscription, publishers, none⟩

/-- C9: a `TimerCallback` always reports no subscription and a
`SubscriptionCallback` always reports no timer: each constructor fixes the
other kind's collaborator to `None`. -/
theorem timer_subscription_fixed_none (tcb : TimerCallbackStructValue)
    (rp1 : RecordsProvider) (pubs1 : Option (List Publisher)) (t : Timer)
    (scb : SubscriptionCallbackStructValue) (rp2 : RecordsProvider)
    (s : Subscription) (pubs2 : Option (List Publisher)) :
    ((mkTimerCallback tcb rp1 pubs1 t).subscription).1 = none ∧
      ((mkSubscriptionCallback scb rp2 s pubs2).timer).1 = none :=
  ⟨rfl, rfl⟩

/-- C10: reading any property of a `CallbackBase` leaves the object exactly
as it was, and `publishers` in particular returns a new sorted list while the
stored publisher list is unchanged. -/
theorem property_reads_pure (c : CallbackBase) :
    (c.node_name).2 = c ∧ (c.symbol).2 = c ∧ (c.callback_name).2 = c ∧
      (c.callback_type).2 = c ∧ (c.subscription).2 = c ∧
      (c.publishers).2 = c ∧ (c.timer).2 = c ∧
      (c.publish_topic_names).2 = c ∧ (c.subscribe_topic_name).2 = c ∧
      (c.publishers).1 = Option.map (List.insertionSort topicLe) c._pubs := by
  refine ⟨rfl, rfl, rfl, rfl, rfl, ?_, rfl, ?_, rfl, ?_⟩
  · cases h : c._pubs <;> simp [CallbackBase.publishers, h]
  · cases h : c.__val.publish_topic_names <;>
      simp [CallbackBase.publish_topic_names, h]
  · cases h : c._pubs <;> simp [CallbackBase.publishers, h]

/-- Counterexample to C8 as stated: two publishers sharing the topic name
`"t"` but living on different nodes.  The two stored lists are permutations
of each other, yet the stable sort preserves their (different) original
orders, so the two `publishers` reads return different sequences. -/
theorem publishers_perm_counterexample :
    (CallbackBase.mk ⟨"n", "s", "cb", .timer_callback, some ["t"], none⟩ ()
          none (some [⟨"t", "n1"⟩, ⟨"t", "n2"⟩]) none)._pubs.get!.Perm
        (CallbackBase.mk ⟨"n", "s", "cb", .timer_callback, some ["t"], none⟩ ()
          none (some [⟨"t", "n2"⟩, ⟨"t", "n1"⟩]) none)._pubs.get! ∧
      ((CallbackBase.mk ⟨"n", "s", "cb", .timer_callback, some ["t"], none⟩ ()
          none (some [⟨"t", "n1"⟩, ⟨"t", "n2"⟩]) none).publishers).1 ≠
        ((CallbackBase.mk ⟨"n", "s", "cb", .timer_callback, some ["t"], none⟩ ()
          none (some [⟨"t", "n2"⟩, ⟨"t", "n1"⟩]) none).publishers).1 := by
  constructor
  · exact List.Perm.swap _ _ _
  · show (some (List.insertionSort topicLe [⟨"t", "n1"⟩, ⟨"t", "n2"⟩]) :
        Option (List Publisher)) ≠
      some (List.insertionSort topicLe [⟨"t", "n2"⟩, ⟨"t", "n1"⟩])
    simp only [List.insertionSort, List.orderedInsert]
    have ht1 : topicLe ⟨"t", "n1"⟩ ⟨"t", "n2"⟩ := le_refl "t"
    have ht2 : topicLe ⟨"t", "n2"⟩ ⟨"t", "n1"⟩ := le_refl "t"
    rw [if_pos ht1, if_pos ht2]
    decide

/-- C8 (amended): the two properties are deterministic up to publisher
identity among equal topic names: for stored publisher lists that are
permutations of each other the sorted outputs carry the same topic-name
sequence (and are equal whenever all topic names differ), the
`publish_topic_names` outputs are equal outright, and both outputs are sorted
ascending by topic name.  Equality of the publisher sequences themselves can
fail when two distinct publishers share a topic name, as the counterexample
shows. -/
theorem callback_output_deterministic (c1 c2 : CallbackBase)
    (ps1 ps2 : List Publisher) (h1 : c1._pubs = some ps1)
    (h2 : c2._pubs = some ps2) (hperm : ps1.Perm ps2)
    (ts1 ts2 : List String) (g1 : c1.__val.publish_topic_names = some ts1)
    (g2 : c2.__val.publish_topic_names = some ts2) (gperm : ts1.Perm ts2) :
    ((c1.publishers).1.map (List.map Publisher.topic_name) =
        (c2.publishers).1.map (List.map Publisher.topic_name)) ∧
      (c1.publish_topic_names).1 = (c2.publish_topic_names).1 ∧
      (∀ l, (c1.publishers).1 = some l → List.Sorted topicLe l) ∧
      (∀ l, (c1.publish_topic_names).1 = some l →
        List.Sorted (fun a b : String => a ≤ b) l) := by
  have hpub1 : (c1.publishers).1 = some (List.insertionSort topicLe ps1) := by
    simp [CallbackBase.publishers, h1]
  have hpub2 : (c2.publishers).1 = some (List.insertionSort topicLe ps2) := by
    simp [CallbackBase.publishers, h2]
  have htn1 : (c1.publish_topic_names).1 =
      some (List.insertionSort (fun a b : String => a ≤ b) ts1) := by
    simp [CallbackBase.publish_topic_names, g1]
  have htn2 : (c2.publish_topic_names).1 =
      some (List.insertionSort (fun a b : String => a ≤ b) ts2) := by
    simp [CallbackBase.publish_topic_names, g2]
  refine ⟨?_, ?_, ?_, ?_⟩
  · rw [hpub1, hpub2]
    show some ((List.insertionSort topicLe ps1).map Publisher.topic_name) =
      some ((List.insertionSort topicLe ps2).map Publisher.topic_name)
    congr 1
    apply List.eq_of_perm_of_sorted (r := fun a b : String => a ≤ b)
    · exact ((List.perm_insertionSort topicLe ps1).map _).trans
        ((hperm.map _).trans ((List.perm_insertionSort topicLe ps2).map _).symm)
    · show List.Pairwise (fun a b : String => a ≤ b)
        ((List.insertionSort topicLe ps1).map Publisher.topic_name)
      rw [List.pairwise_map]
      exact List.sorted_insertionSort topicLe ps1
    · show List.Pairwise (fun a b : String => a ≤ b)
        ((List.insertionSort topicLe ps2).map Publisher.topic_name)
      rw [List.pairwise_map]
      exact List.sorted_insertionSort topicLe ps2
  · rw [htn1, htn2]
    congr 1
    apply List.eq_of_perm_of_sorted (r := fun a b : String => a ≤ b)
    · exact (List.perm_insertionSort _ ts1).trans
        (gperm.trans (List.perm_insertionSort _ ts2).symm)
    · exact List.sorted_insertionSort _ ts1
    · exact List.sorted_insertionSort _ ts2
  · intro l hl2
    rw [hpub1] at hl2
    cases Option.some.inj hl2
    exact List.sorted_insertionSort topicLe ps1
  · intro l hl2
    rw [htn1] at hl2
    cases Option.some.inj hl2
    exact List.sorted_insertionSort _ ts1

/-- Witness for C8 (amended) at the tie counterexample's inputs: the
topic-name sequences and the sorted topic-name lists agree even though the
publisher sequences differ. -/
theorem callback_output_deterministic_witness :
    (((CallbackBase.mk ⟨"n", "s", "cb", .timer_callback, some ["t"], none⟩ ()
          none (some [⟨"t", "n1"⟩, ⟨"t", "n2"⟩]) none).publishers).1.map
            (List.map Publisher.topic_name) =
        ((CallbackBase.mk ⟨"n", "s", "cb", .timer_callback, some ["t"], none⟩ ()
          none (some [⟨"t", "n2"⟩, ⟨"t", "n1"⟩]) none).publishers).1.map
            (List.map Publisher.topic_name)) ∧
      ((CallbackBase.mk ⟨"n", "s", "cb", .timer_callback, some ["t"], none⟩ ()
          none (some [⟨"t", "n1"⟩, ⟨"t", "n2"⟩]) none).publish_topic_names).1 =
        ((CallbackBase.mk ⟨"n", "s", "cb", .timer_callback, some ["t"], none⟩ ()
          none (some [⟨"t", "n2"⟩, ⟨"t", "n1"⟩]) none).publish_topic_names).1 ∧
      (∀ l, ((CallbackBase.mk ⟨"n", "s", "cb", .timer_callback, some ["t"], none⟩ ()
          none (some [⟨"t", "n1"⟩, ⟨"t", "n2"⟩]) none).publishers).1 = some l →
        List.Sorted topicLe l) ∧
      (∀ l, ((CallbackBase.mk ⟨"n", "s", "cb", .timer_callback, some ["t"], none⟩ ()
          none (some [⟨"t", "n1"⟩, ⟨"t", "n2"⟩]) none).publish_topic_names).1 =
          some l → List.Sorted (fun a b : String => a ≤ b) l) :=
  callback_output_deterministic _ _ [⟨"t", "n1"⟩, ⟨"t", "n2"⟩]
    [⟨"t", "n2"⟩, ⟨"t", "n1"⟩] rfl rfl (List.Perm.swap _ _ _)
    ["t"] ["t"] rfl rfl (List.Perm.refl _)

end Caret
